import Mathlib

/-
Verification development for `rl4co/models/zoo/common/nonautoregressive/decoder.py`.

The module has two components:
 * `EdgeHeatmapGenerator`: an MLP turning per-edge embeddings into scalar
   scores (sigmoid * 10), scattered into dense per-instance heatmap matrices,
   optionally symmetrized for undirected graphs;
 * `NonAutoregressiveDecoder`: a decode loop that repeatedly derives masked
   log-probabilities from the heatmap and advances an external environment
   until every sequence is done.

Tensors are embedded as total functions (out-of-support entries are 0); batch
and node dimensions are carried as explicit sizes.  Values that can become
negative infinity or NaN under IEEE arithmetic (the masked log-probabilities)
live in the extended type `FVal`; real arithmetic is exact, which matches the
structural (sign / infinity / NaN) content of the claims.
-/

noncomputable section

namespace RL4CO

/-! ## IEEE-style extended values for the log-probability pipeline -/

/-- An IEEE-754-like value as produced by the masking / log-softmax pipeline:
NaN, minus infinity, plus infinity, or a finite real. -/
inductive FVal : Type where
  | nan : FVal
  | neginf : FVal
  | posinf : FVal
  | fin : ℝ → FVal
  deriving DecidableEq

namespace FVal

/-- IEEE addition on extended values (NaN propagates, opposite infinities
give NaN). -/
def add : FVal → FVal → FVal
  | nan, _ => nan
  | _, nan => nan
  | posinf, neginf => nan
  | neginf, posinf => nan
  | posinf, _ => posinf
  | _, posinf => posinf
  | neginf, _ => neginf
  | _, neginf => neginf
  | fin a, fin b => fin (a + b)

/-- IEEE subtraction on extended values (∞ − ∞ is NaN). -/
def sub : FVal → FVal → FVal
  | nan, _ => nan
  | _, nan => nan
  | neginf, neginf => nan
  | posinf, posinf => nan
  | neginf, _ => neginf
  | posinf, _ => posinf
  | fin _, posinf => neginf
  | fin _, neginf => posinf
  | fin a, fin b => fin (a - b)

/-- IEEE exponential: exp(−∞) = 0, exp(+∞) = +∞. -/
def exp : FVal → FVal
  | nan => nan
  | neginf => fin 0
  | posinf => posinf
  | fin x => fin (Real.exp x)

/-- IEEE logarithm: log 0 = −∞, log of a negative value is NaN. -/
def log : FVal → FVal
  | nan => nan
  | neginf => nan
  | posinf => posinf
  | fin x => if x < 0 then nan else if x = 0 then neginf else fin (Real.log x)

end FVal

/-- Sum of the first `n` entries of a row of extended values, as `torch.sum`
over the last dimension. -/
def sumF (n : ℕ) (f : ℕ → FVal) : FVal :=
  ((List.range n).map f).foldr FVal.add (FVal.fin 0)

/-- Log-softmax over a row of width `n`: `x - log (sum (exp x))`.  In exact
real arithmetic this equals the max-shifted form PyTorch computes, including
the corner cases: an all-(−∞) row yields a zero sum, hence a −∞ log-sum-exp,
hence NaN (−∞ − −∞) at every position. -/
def logSoftmaxRow (n : ℕ) (row : ℕ → FVal) : ℕ → FVal :=
  fun j => FVal.sub (row j) (FVal.log (sumF n (fun k => FVal.exp (row k))))

/-! ## EdgeHeatmapGenerator -/

/-- Sigmoid, as `torch.sigmoid`. -/
def sigmoid (x : ℝ) : ℝ := 1 / (1 + Real.exp (-x))

/-- A square linear layer `nn.Linear(embedding_dim, embedding_dim)`. -/
structure LinLayer (d : ℕ) where
  w : Fin d → Fin d → ℝ
  b : Fin d → ℝ

/-- Apply a square linear layer to a feature vector. -/
def LinLayer.apply (l : LinLayer d) (h : Fin d → ℝ) : Fin d → ℝ :=
  fun o => (∑ k, l.w o k * h k) + l.b o

/-- The final projection `nn.Linear(embedding_dim, 1)`. -/
structure OutLayer (d : ℕ) where
  w : Fin d → ℝ
  b : ℝ

/-- Apply the output projection to a feature vector. -/
def OutLayer.apply (l : OutLayer d) (h : Fin d → ℝ) : ℝ :=
  (∑ k, l.w k * h k) + l.b

/-- The `EdgeHeatmapGenerator` module: hidden linear layers, output
projection, activation, and the `undirected_graph` flag. -/
structure EdgeHeatmapGenerator (d : ℕ) where
  linears : List (LinLayer d)
  output : OutLayer d
  act : ℝ → ℝ
  undirected_graph : Bool

/-- One graph of the batch: node count (`x.shape[0]`), edge index as a list of
(source, target) pairs, and one `embedding_dim`-feature vector per edge. -/
structure EGraph (d : ℕ) where
  nodes : ℕ
  edges : List (ℕ × ℕ)
  attrs : List (Fin d → ℝ)

instance : Inhabited (EGraph d) := ⟨⟨0, [], []⟩⟩

/-- The per-edge score computed by `EdgeHeatmapGenerator.forward`: hidden
layers with activation, output projection, sigmoid, scaled by 10. -/
def EdgeHeatmapGenerator.edgeScore (g : EdgeHeatmapGenerator d) (h0 : Fin d → ℝ) : ℝ :=
  let h := g.linears.foldl (fun h l => fun o => g.act (l.apply h o)) h0
  sigmoid (g.output.apply h) * 10

/-- Scatter-assignment `heatmaps[index, edge_index[0], edge_index[1]] =
edge_attr`: sequential writes, last write wins on duplicate edges. -/
def scatterEdges : List ((ℕ × ℕ) × ℝ) → (ℕ → ℕ → ℝ) → (ℕ → ℕ → ℝ)
  | [], m => m
  | (e, s) :: rest, m =>
      scatterEdges rest (fun u v => if u = e.1 ∧ v = e.2 then s else m u v)

/-- Heatmap assembly (`_make_heatmaps`) for one graph of the batch: scatter the sigmoid-scaled
edge scores into a zero matrix, then symmetrize with `(M + Mᵀ) * 0.5` when
`undirected_graph` is set. -/
def EdgeHeatmapGenerator.makeHeatmap (g : EdgeHeatmapGenerator d) (gr : EGraph d) :
    ℕ → ℕ → ℝ :=
  let scores := gr.attrs.map g.edgeScore
  let base := scatterEdges (gr.edges.zip scores) (fun _ _ => 0)
  if g.undirected_graph then fun u v => (base u v + base v u) * (1 / 2) else base

/-- Forward pass of `EdgeHeatmapGenerator`: score every edge, then assemble one dense
heatmap per graph of the batch. -/
def EdgeHeatmapGenerator.forward (g : EdgeHeatmapGenerator d) (batch : List (EGraph d)) :
    List (ℕ → ℕ → ℝ) :=
  batch.map g.makeHeatmap

/-! ## Rollout state, environment and strategy interfaces -/

/-- The rollout `TensorDict`: per-row `done` flags, the feasibility mask
`action_mask` (true = feasible), the optional last `action`, and the optional
`reward`.  `rows` is the (possibly multistart-expanded) batch dimension. -/
structure TD where
  rows : ℕ
  done : ℕ → Bool
  action_mask : ℕ → ℕ → Bool
  action : Option (ℕ → ℕ)
  reward : Option (ℕ → ℝ)

/-- Per-step decoder outputs recorded by a strategy (opaque to the decoder). -/
def OutputsT : Type := ℕ → ℕ → ℝ

/-- The action sequences produced by a rollout (opaque to the decoder). -/
def ActionsT : Type := ℕ → ℕ → ℕ

/-- An environment: `step` advances the state (the `["next"]` projection is
folded in), `get_reward` scores the final state and action sequence. -/
structure Env where
  step : TD → TD
  get_reward : TD → ActionsT → ℕ → ℝ

/-- A decoding strategy: pre-hook (returning the transformed state, the
environment, and `num_starts`), per-step action selection, and post-hook. -/
structure Strategy where
  preHook : TD → Env → TD × Env × ℤ
  stepFn : (ℕ → ℕ → FVal) → (ℕ → ℕ → Bool) → TD → TD
  postHook : TD → Env → OutputsT × ActionsT × TD × Env

/-! ## NonAutoregressiveDecoder -/

/-- Modelled from the spec: rl4co.utils.ops.batchify is not under src/.  Per
the spec, the multistart index "correctly maps each of num_starts parallel
rollouts back to its source instance index (e.g. batch_size=2, num_starts=3
yields index sequence [0,0,0,1,1,1])": each instance index of `arr` is
replicated `num_starts` times in a contiguous block. -/
def batchify (arr : List ℕ) (num_starts : ℕ) : List ℕ :=
  (arr.map (List.replicate num_starts)).flatten

/-- Index helper `_multistart_batched_index`: `arange(batch_size)` when `num_starts <= 1`,
otherwise `batchify(arange(batch_size), num_starts)`.  `num_starts` is an
integer, so values `<= 1` include zero and negatives. -/
def multistart_batched_index (batch_size : ℕ) (num_starts : ℤ) : List ℕ :=
  let arr := List.range batch_size
  if num_starts ≤ 1 then arr else batchify arr num_starts.toNat

/-- Mean over the last dimension, `mean(-1)`, on a `[b, n, n]` tensor: per (instance, row) mean
over the last dimension. -/
def meanLast (n : ℕ) (hm : ℕ → ℕ → ℕ → ℝ) : ℕ → ℕ → ℝ :=
  fun i u => ((List.range n).map (hm i u)).sum / n

/-- The pre-mask scores of `_get_log_p`: `heatmaps_logp.mean(-1)` when no
action has been taken yet, otherwise
`heatmaps_logp[_indexer, current_action, :]`. -/
def preMaskLogP (n b : ℕ) (hm : ℕ → ℕ → ℕ → ℝ) (ns : ℤ) (action : Option (ℕ → ℕ)) :
    ℕ → ℕ → ℝ :=
  match action with
  | none => meanLast n hm
  | some a => fun i v => hm ((multistart_batched_index b ns).getD i 0) (a i) v

/-- Negated feasibility mask, `mask = ~action_mask` (true = infeasible). -/
def tdMask (td : TD) : ℕ → ℕ → Bool :=
  fun i j => ! td.action_mask i j

/-- Masking step `log_p[mask] = -inf`: the pre-mask scores with −∞ written at every
infeasible position. -/
def maskedLogP (n b : ℕ) (hm : ℕ → ℕ → ℕ → ℝ) (ns : ℤ) (td : TD) : ℕ → ℕ → FVal :=
  fun i j =>
    if tdMask td i j then FVal.neginf
    else FVal.fin (preMaskLogP n b hm ns td.action i j)

/-- The decoder method `_get_log_p`: pre-mask scores, masking, then
`log_softmax` over the node dimension; returns `(log_p, mask)`. -/
def get_log_p (n b : ℕ) (hm : ℕ → ℕ → ℕ → ℝ) (ns : ℤ) (td : TD) :
    (ℕ → ℕ → FVal) × (ℕ → ℕ → Bool) :=
  (fun i => logSoftmaxRow n (maskedLogP n b hm ns td i), tdMask td)

/-- All-done check `td.done.all()`. -/
def allDone (td : TD) : Bool :=
  (List.range td.rows).all td.done

/-- The decoder module state: configured environment name, the held heatmap
generator, and the `decode_strategy` attribute written by `forward`. -/
structure NonAutoregressiveDecoder (d : ℕ) where
  env_name : String
  heatmap_generator : EdgeHeatmapGenerator d
  decode_strategy : Option Strategy

/-- Environment resolution at the top of `forward`: construct from the
registry when `env` is absent or a name, otherwise use the given instance. -/
def resolveEnv (regE : String → Env) (dec : NonAutoregressiveDecoder d)
    (env : Option (String ⊕ Env)) : Env :=
  match env with
  | none => regE dec.env_name
  | some (Sum.inl s) => regE s
  | some (Sum.inr e) => e

/-- One iteration of the main decode loop: `_get_log_p`, then
`strategy.step`, then `env.step(td)["next"]`. -/
def narBody (n b : ℕ) (hm : ℕ → ℕ → ℕ → ℝ) (ns : ℤ) (strat : Strategy) (env : Env) :
    TD → TD :=
  fun td => env.step (strat.stepFn (get_log_p n b hm ns td).1 (get_log_p n b hm ns td).2 td)

/-- The `while not td["done"].all()` loop, with explicit fuel standing for the
number of iterations still allowed; `none` models non-termination within the
given fuel. -/
def decodeLoop (body : TD → TD) : ℕ → TD → Option TD
  | 0, td =>
      match allDone td with
      | true => some td
      | false => none
  | fuel + 1, td =>
      match allDone td with
      | true => some td
      | false => decodeLoop body fuel (body td)

/-- The loop body used by `NonAutoregressiveDecoder.forward`, with the
heatmap, sizes, strategy and post-pre-hook environment it closes over. -/
def forwardLoopBody (regE : String → Env) (regS : String → Strategy)
    (dec : NonAutoregressiveDecoder d) (td : TD) (graph : List (EGraph d))
    (env : Option (String ⊕ Env)) (decode_type : String) : TD → TD :=
  let env0 := resolveEnv regE dec env
  let hmList := dec.heatmap_generator.forward graph
  let hm : ℕ → ℕ → ℕ → ℝ := fun i => hmList.getD i (fun _ _ => 0)
  let b := hmList.length
  let n := (graph.headD default).nodes
  let strat := regS decode_type
  let pre := strat.preHook td env0
  narBody n b hm pre.2.2 strat pre.2.1

/-- The state entering the decode loop: the result of the strategy's
pre-decoder hook. -/
def forwardInitTD (regE : String → Env) (regS : String → Strategy)
    (dec : NonAutoregressiveDecoder d) (td : TD) (graph : List (EGraph d))
    (env : Option (String ⊕ Env)) (decode_type : String) : TD :=
  ((regS decode_type).preHook td (resolveEnv regE dec env)).1

/-- The environment returned by the strategy's pre-decoder hook (used by the
loop and the post-hook). -/
def forwardPreEnv (regE : String → Env) (regS : String → Strategy)
    (dec : NonAutoregressiveDecoder d) (td : TD) (graph : List (EGraph d))
    (env : Option (String ⊕ Env)) (decode_type : String) : Env :=
  ((regS decode_type).preHook td (resolveEnv regE dec env)).2.1

/-- Forward pass of `NonAutoregressiveDecoder`: resolve the environment, compute the
heatmap, store the strategy in `self.decode_strategy`, run the pre-hook, loop
until all sequences are done (up to `fuel` iterations), run the post-hook, and
optionally set the reward.  Returns the result (or `none` when the fuel is
exhausted before all sequences are done) together with the updated decoder
object. -/
def NonAutoregressiveDecoder.forward (regE : String → Env) (regS : String → Strategy)
    (dec : NonAutoregressiveDecoder d) (td : TD) (graph : List (EGraph d))
    (env : Option (String ⊕ Env)) (decode_type : String) (calc_reward : Bool)
    (fuel : ℕ) : Option (OutputsT × ActionsT × TD) × NonAutoregressiveDecoder d :=
  let strat := regS decode_type
  let dec' := { dec with decode_strategy := some strat }
  let res :=
    match decodeLoop (forwardLoopBody regE regS dec td graph env decode_type) fuel
        (forwardInitTD regE regS dec td graph env decode_type) with
    | none => none
    | some td2 =>
      let post := strat.postHook td2 (forwardPreEnv regE regS dec td graph env decode_type)
      let td3 :=
        if calc_reward then
          { post.2.2.1 with reward := some (post.2.2.2.get_reward post.2.2.1 post.2.1) }
        else post.2.2.1
      some (post.1, post.2.1, td3)
  (res, dec')

/-! ## Helper lemmas -/

theorem list_range_map_sum (n : ℕ) (g : ℕ → ℝ) :
    ((List.range n).map g).sum = ∑ j ∈ Finset.range n, g j := by
  induction n with
  | zero => simp
  | succ n ih =>
      rw [List.range_succ, List.map_append, List.sum_append, Finset.sum_range_succ, ih]
      simp

theorem mem_zip_map {α β : Type _} (f : α → β) :
    ∀ (l : List α) (p : α × β), p ∈ l.zip (l.map f) → p.2 = f p.1 := by
  intro l
  induction l with
  | nil => intro p hp; simp at hp
  | cons a t ih =>
      intro p hp
      simp only [List.map_cons, List.zip_cons_cons, List.mem_cons] at hp
      rcases hp with h | h
      · subst h; rfl
      · exact ih p h

theorem fst_mem_of_mem_zip {α β : Type _} {l₁ : List α} {l₂ : List β} {p : α × β}
    (h : p ∈ l₁.zip l₂) : p.1 ∈ l₁ := by
  obtain ⟨a, b⟩ := p
  exact (List.of_mem_zip h).1

theorem snd_mem_of_mem_zip {α β : Type _} {l₁ : List α} {l₂ : List β} {p : α × β}
    (h : p ∈ l₁.zip l₂) : p.2 ∈ l₂ := by
  obtain ⟨a, b⟩ := p
  exact (List.of_mem_zip h).2

theorem scatterEdges_not_mem :
    ∀ (l : List ((ℕ × ℕ) × ℝ)) (m : ℕ → ℕ → ℝ) (u v : ℕ),
      (u, v) ∉ l.map Prod.fst → scatterEdges l m u v = m u v := by
  intro l
  induction l with
  | nil => intro m u v _; rfl
  | cons p t ih =>
      intro m u v h
      obtain ⟨e, s⟩ := p
      simp only [List.map_cons, List.mem_cons, not_or] at h
      show scatterEdges t (fun u v => if u = e.1 ∧ v = e.2 then s else m u v) u v = m u v
      rw [ih _ u v h.2]
      have hne : ¬(u = e.1 ∧ v = e.2) := by
        rintro ⟨h1, h2⟩
        exact h.1 (by rw [Prod.ext_iff]; exact ⟨h1, h2⟩)
      simp [hne]

theorem scatterEdges_mem :
    ∀ (l : List ((ℕ × ℕ) × ℝ)) (m : ℕ → ℕ → ℝ) (u v : ℕ),
      (u, v) ∈ l.map Prod.fst →
      ∃ s, ((u, v), s) ∈ l ∧ scatterEdges l m u v = s := by
  intro l
  induction l with
  | nil => intro m u v h; simp at h
  | cons p t ih =>
      intro m u v h
      obtain ⟨e, s⟩ := p
      by_cases ht : (u, v) ∈ t.map Prod.fst
      · obtain ⟨s', hs1, hs2⟩ := ih _ u v ht
        exact ⟨s', List.mem_cons_of_mem _ hs1, hs2⟩
      · simp only [List.map_cons, List.mem_cons] at h
        have he : (u, v) = e := h.resolve_right ht
        refine ⟨s, ?_, ?_⟩
        · rw [he]; exact List.mem_cons_self _ _
        · show scatterEdges t (fun u v => if u = e.1 ∧ v = e.2 then s else m u v) u v = s
          rw [scatterEdges_not_mem t _ u v ht]
          have heq : u = e.1 ∧ v = e.2 := by
            rw [Prod.ext_iff] at he; exact he
          simp [heq]

theorem sigmoid_pos (x : ℝ) : 0 < sigmoid x := by
  unfold sigmoid
  positivity

theorem sigmoid_lt_one (x : ℝ) : sigmoid x < 1 := by
  unfold sigmoid
  rw [div_lt_one (by positivity)]
  linarith [Real.exp_pos (-x)]

theorem edgeScore_bounds (g : EdgeHeatmapGenerator d) (h0 : Fin d → ℝ) :
    0 < g.edgeScore h0 ∧ g.edgeScore h0 < 10 := by
  simp only [EdgeHeatmapGenerator.edgeScore]
  constructor
  · exact mul_pos (sigmoid_pos _) (by norm_num)
  · have h := sigmoid_lt_one (g.output.apply (g.linears.foldl
      (fun h l => fun o => g.act (l.apply h o)) h0))
    linarith

theorem makeHeatmap_zero (g : EdgeHeatmapGenerator d) (gr : EGraph d) (u v : ℕ)
    (h1 : (u, v) ∉ gr.edges) (h2 : (v, u) ∉ gr.edges) :
    g.makeHeatmap gr u v = 0 := by
  have hnotzip : ∀ w z : ℕ, (w, z) ∉ gr.edges →
      (w, z) ∉ ((gr.edges.zip (gr.attrs.map g.edgeScore)).map Prod.fst) := by
    intro w z hwz hmem
    obtain ⟨p, hp, hfst⟩ := List.mem_map.1 hmem
    exact hwz (hfst ▸ fst_mem_of_mem_zip hp)
  have hb1 := scatterEdges_not_mem (gr.edges.zip (gr.attrs.map g.edgeScore))
    (fun _ _ => 0) u v (hnotzip u v h1)
  have hb2 := scatterEdges_not_mem (gr.edges.zip (gr.attrs.map g.edgeScore))
    (fun _ _ => 0) v u (hnotzip v u h2)
  simp only [EdgeHeatmapGenerator.makeHeatmap]
  by_cases hu : g.undirected_graph = true <;> simp [hu, hb1, hb2]

theorem makeHeatmap_edge_bounds (g : EdgeHeatmapGenerator d) (gr : EGraph d)
    (hlen : gr.edges.length = gr.attrs.length) (e : ℕ × ℕ) (he : e ∈ gr.edges) :
    0 < g.makeHeatmap gr e.1 e.2 ∧ g.makeHeatmap gr e.1 e.2 < 10 := by
  have hslen : gr.edges.length ≤ (gr.attrs.map g.edgeScore).length := by
    simp [← hlen]
  have hfst : (gr.edges.zip (gr.attrs.map g.edgeScore)).map Prod.fst = gr.edges :=
    List.map_fst_zip _ _ hslen
  have hmem : (e.1, e.2) ∈ (gr.edges.zip (gr.attrs.map g.edgeScore)).map Prod.fst := by
    rw [hfst]; simpa using he
  obtain ⟨s, hsmem, hval⟩ :=
    scatterEdges_mem (gr.edges.zip (gr.attrs.map g.edgeScore)) (fun _ _ => 0) e.1 e.2 hmem
  have hs_bounds : 0 < s ∧ s < 10 := by
    have hsin : s ∈ gr.attrs.map g.edgeScore :=
      snd_mem_of_mem_zip (p := ((e.1, e.2), s)) hsmem
    obtain ⟨h0, _, rfl⟩ := List.mem_map.1 hsin
    exact edgeScore_bounds g h0
  have hrev : 0 ≤ scatterEdges (gr.edges.zip (gr.attrs.map g.edgeScore))
      (fun _ _ => 0) e.2 e.1 ∧
      scatterEdges (gr.edges.zip (gr.attrs.map g.edgeScore)) (fun _ _ => 0) e.2 e.1 < 10 := by
    by_cases hm : (e.2, e.1) ∈ (gr.edges.zip (gr.attrs.map g.edgeScore)).map Prod.fst
    · obtain ⟨s', hs1, hs2⟩ :=
        scatterEdges_mem (gr.edges.zip (gr.attrs.map g.edgeScore)) (fun _ _ => 0) e.2 e.1 hm
      have hsin : s' ∈ gr.attrs.map g.edgeScore :=
        snd_mem_of_mem_zip (p := ((e.2, e.1), s')) hs1
      obtain ⟨h0, _, rfl⟩ := List.mem_map.1 hsin
      have hb := edgeScore_bounds g h0
      rw [hs2]
      exact ⟨le_of_lt hb.1, hb.2⟩
    · rw [scatterEdges_not_mem _ _ _ _ hm]
      norm_num
  simp only [EdgeHeatmapGenerator.makeHeatmap]
  cases hu : g.undirected_graph with
  | true =>
      simp only [if_true]
      rw [hval] at *
      constructor <;> nlinarith [hs_bounds.1, hs_bounds.2, hrev.1, hrev.2]
  | false =>
      simp only [Bool.false_eq_true, if_false]
      rw [hval]
      exact hs_bounds

/-! ## Claim theorems: heatmap structure -/

/-- Concrete heatmap generator used to witness the heatmap claims:
`embedding_dim = 1`, no hidden layer, zero output projection, undirected. -/
def genW : EdgeHeatmapGenerator 1 :=
  { linears := [], output := { w := fun _ => 0, b := 0 }, act := id,
    undirected_graph := true }

/-- Concrete two-node graph with a single edge `(0, 1)` used in witnesses. -/
def grW : EGraph 1 := { nodes := 2, edges := [(0, 1)], attrs := [fun _ => 0] }

/-- C1: with `undirected_graph` set, every heatmap returned by
`EdgeHeatmapGenerator.forward` is symmetric in its last two dimensions,
as produced by the `(M + Mᵀ) * 0.5` symmetrization. -/
theorem C1_undirected_symmetric (d : ℕ) (g : EdgeHeatmapGenerator d)
    (hund : g.undirected_graph = true) (batch : List (EGraph d)) (M : ℕ → ℕ → ℝ)
    (hM : M ∈ g.forward batch) : ∀ u v, M u v = M v u := by
  obtain ⟨gr, _, rfl⟩ := List.mem_map.1 hM
  intro u v
  simp only [EdgeHeatmapGenerator.makeHeatmap, hund, if_true]
  ring

/-- C1 witness: the symmetry theorem applied to a concrete undirected
generator and a concrete one-edge graph. -/
theorem C1_undirected_symmetric_witness :
    genW.undirected_graph = true ∧
      ∀ u v, genW.makeHeatmap grW u v = genW.makeHeatmap grW v u :=
  ⟨rfl, C1_undirected_symmetric 1 genW rfl [grW] (genW.makeHeatmap grW)
    (by simp [EdgeHeatmapGenerator.forward])⟩

/-- C5: for a batch of `N`-node graphs without self-loops and with in-range
edge indices, the heatmap list has one `N × N` matrix per instance, and every
position that is neither an edge nor the reverse of an edge — including every
diagonal position and every out-of-range position — holds zero. -/
theorem C5_heatmap_shape_zeros (d : ℕ) (g : EdgeHeatmapGenerator d)
    (batch : List (EGraph d)) (N : ℕ)
    (huniform : ∀ gr ∈ batch, gr.nodes = N)
    (hrange : ∀ gr ∈ batch, ∀ e ∈ gr.edges, e.1 < N ∧ e.2 < N)
    (hnoself : ∀ gr ∈ batch, ∀ e ∈ gr.edges, e.1 ≠ e.2) :
    (g.forward batch).length = batch.length ∧
    (∀ p ∈ batch.zip (g.forward batch), ∀ u v : ℕ,
        (u, v) ∉ p.1.edges → (v, u) ∉ p.1.edges → p.2 u v = 0) ∧
    (∀ p ∈ batch.zip (g.forward batch), ∀ u, p.2 u u = 0) ∧
    (∀ p ∈ batch.zip (g.forward batch), ∀ u v : ℕ, N ≤ u ∨ N ≤ v → p.2 u v = 0) := by
  have halign : ∀ p ∈ batch.zip (g.forward batch), p.2 = g.makeHeatmap p.1 := by
    intro p hp
    exact mem_zip_map g.makeHeatmap batch p hp
  refine ⟨by simp [EdgeHeatmapGenerator.forward], ?_, ?_, ?_⟩
  · intro p hp u v h1 h2
    rw [halign p hp]
    exact makeHeatmap_zero g p.1 u v h1 h2
  · intro p hp u
    rw [halign p hp]
    have hin : p.1 ∈ batch := fst_mem_of_mem_zip hp
    have hni : (u, u) ∉ p.1.edges := by
      intro hc
      exact hnoself p.1 hin (u, u) hc rfl
    exact makeHeatmap_zero g p.1 u u hni hni
  · intro p hp u v hout
    rw [halign p hp]
    have hin : p.1 ∈ batch := fst_mem_of_mem_zip hp
    have h1 : (u, v) ∉ p.1.edges := by
      intro hc
      have := hrange p.1 hin (u, v) hc
      rcases hout with h | h <;> omega
    have h2 : (v, u) ∉ p.1.edges := by
      intro hc
      have := hrange p.1 hin (v, u) hc
      rcases hout with h | h <;> omega
    exact makeHeatmap_zero g p.1 u v h1 h2

/-- C5 witness: the shape/zero theorem applied to the concrete one-edge
two-node batch. -/
theorem C5_heatmap_shape_zeros_witness :
    (∀ gr ∈ [grW], gr.nodes = 2) ∧
    (∀ gr ∈ [grW], ∀ e ∈ gr.edges, e.1 < 2 ∧ e.2 < 2) ∧
    (∀ gr ∈ [grW], ∀ e ∈ gr.edges, e.1 ≠ e.2) ∧
    ((genW.forward [grW]).length = [grW].length ∧
      (∀ p ∈ [grW].zip (genW.forward [grW]), ∀ u v : ℕ,
          (u, v) ∉ p.1.edges → (v, u) ∉ p.1.edges → p.2 u v = 0) ∧
      (∀ p ∈ [grW].zip (genW.forward [grW]), ∀ u, p.2 u u = 0) ∧
      (∀ p ∈ [grW].zip (genW.forward [grW]), ∀ u v : ℕ, 2 ≤ u ∨ 2 ≤ v → p.2 u v = 0)) := by
  have h1 : ∀ gr ∈ [grW], gr.nodes = 2 := by
    intro gr hg
    rw [List.mem_singleton] at hg
    subst hg
    rfl
  have h2 : ∀ gr ∈ [grW], ∀ e ∈ gr.edges, e.1 < 2 ∧ e.2 < 2 := by
    intro gr hg
    rw [List.mem_singleton] at hg
    subst hg
    decide
  have h3 : ∀ gr ∈ [grW], ∀ e ∈ gr.edges, e.1 ≠ e.2 := by
    intro gr hg
    rw [List.mem_singleton] at hg
    subst hg
    decide
  exact ⟨h1, h2, h3, C5_heatmap_shape_zeros 1 genW [grW] 2 h1 h2 h3⟩

/-- C6: every heatmap entry at a position corresponding to an input edge lies
strictly within `(0, 10)`: each per-edge score is a sigmoid output scaled by
10, and the undirected average of such a score with a value in `[0, 10)`
stays in the open interval. -/
theorem C6_edge_scores_bounded (d : ℕ) (g : EdgeHeatmapGenerator d)
    (batch : List (EGraph d))
    (hlen : ∀ gr ∈ batch, gr.edges.length = gr.attrs.length) :
    ∀ p ∈ batch.zip (g.forward batch), ∀ e ∈ p.1.edges,
      0 < p.2 e.1 e.2 ∧ p.2 e.1 e.2 < 10 := by
  intro p hp e he
  have hp2 : p.2 = g.makeHeatmap p.1 := mem_zip_map g.makeHeatmap batch p hp
  have hin : p.1 ∈ batch := fst_mem_of_mem_zip hp
  rw [hp2]
  exact makeHeatmap_edge_bounds g p.1 (hlen p.1 hin) e he

/-- C6 witness: the bound theorem applied to the concrete one-edge graph; the
edge `(0, 1)` receives a strictly positive score below 10. -/
theorem C6_edge_scores_bounded_witness :
    (∀ gr ∈ [grW], gr.edges.length = gr.attrs.length) ∧
    (0 < genW.makeHeatmap grW 0 1 ∧ genW.makeHeatmap grW 0 1 < 10) := by
  have h1 : ∀ gr ∈ [grW], gr.edges.length = gr.attrs.length := by
    intro gr hg
    rw [List.mem_singleton] at hg
    subst hg
    rfl
  refine ⟨h1, ?_⟩
  exact C6_edge_scores_bounded 1 genW [grW] h1 (grW, genW.makeHeatmap grW)
    (by simp [EdgeHeatmapGenerator.forward]) (0, 1) (by simp [grW])

/-! ## Claim theorems: multistart index helper -/

theorem flatten_replicate_length (t : ℕ) :
    ∀ b : ℕ, (((List.range b).map (List.replicate t)).flatten).length = b * t := by
  intro b
  induction b with
  | zero => simp
  | succ b ih =>
      rw [List.range_succ, List.map_append, List.flatten_append]
      simp only [List.length_append, ih, List.map_cons, List.map_nil, List.flatten_cons,
        List.flatten_nil, List.append_nil, List.length_replicate]
      ring

theorem getD_replicate_lt : ∀ (t i b : ℕ), i < t → (List.replicate t b).getD i 0 = b := by
  intro t
  induction t with
  | zero => intro i b h; omega
  | succ t ih =>
      intro i b h
      cases i with
      | zero => rw [List.replicate_succ, List.getD_cons_zero]
      | succ i =>
          rw [List.replicate_succ, List.getD_cons_succ]
          exact ih i b (by omega)

theorem flatten_replicate_getD (t : ℕ) :
    ∀ b k : ℕ, k < b * t →
      (((List.range b).map (List.replicate t)).flatten).getD k 0 = k / t := by
  intro b
  induction b with
  | zero => intro k h; omega
  | succ b ih =>
      intro k h
      rcases Nat.eq_zero_or_pos t with rfl | ht
      · rw [Nat.mul_zero] at h
        omega
      rw [Nat.succ_mul] at h
      rw [List.range_succ, List.map_append, List.flatten_append]
      have hlen : (((List.range b).map (List.replicate t)).flatten).length = b * t :=
        flatten_replicate_length t b
      by_cases hk : k < b * t
      · rw [List.getD_append _ _ _ _ (by rw [hlen]; exact hk)]
        exact ih k hk
      · rw [List.getD_append_right _ _ _ _ (by rw [hlen]; omega)]
        simp only [List.map_cons, List.map_nil, List.flatten_cons, List.flatten_nil,
          List.append_nil]
        rw [hlen, getD_replicate_lt t (k - b * t) b (by omega)]
        exact (Nat.div_eq_of_lt_le (by omega) (by rw [Nat.succ_mul]; omega)).symm

/-- C4: `_multistart_batched_index` is deterministic in `(batch_size,
num_starts)` (so the memoized and recomputed values agree), yields
`[0, 0, 0, 1, 1, 1]` for batch size 2 with 3 starts, and in general maps the
`k`-th parallel rollout back to source instance `k / num_starts`. -/
theorem C4_multistart_index :
    (∀ (b : ℕ) (s : ℤ), multistart_batched_index b s = multistart_batched_index b s) ∧
    multistart_batched_index 2 3 = [0, 0, 0, 1, 1, 1] ∧
    ∀ (b : ℕ) (s : ℤ), 1 < s → ∀ k : ℕ, k < b * s.toNat →
      (multistart_batched_index b s).getD k 0 = k / s.toNat := by
  refine ⟨fun _ _ => rfl, by decide, ?_⟩
  intro b s hs k hk
  have hns : ¬s ≤ 1 := by omega
  unfold multistart_batched_index
  rw [if_neg hns]
  unfold batchify
  exact flatten_replicate_getD s.toNat b k hk

/-- C4 witness: the index theorem applied at batch size 2, 3 starts, rollout
4, which belongs to source instance 1. -/
theorem C4_multistart_index_witness :
    (1 : ℤ) < 3 ∧ 4 < 2 * (3 : ℤ).toNat ∧
      (multistart_batched_index 2 3).getD 4 0 = 4 / (3 : ℤ).toNat :=
  ⟨by decide, by decide, C4_multistart_index.2.2 2 3 (by decide) 4 (by decide)⟩

/-- C10: for `num_starts ≤ 1` (including zero and negative values),
`_multistart_batched_index` returns the identity index sequence
`[0, 1, ..., batch_size - 1]` with no replication. -/
theorem C10_identity_when_few_starts (b : ℕ) (s : ℤ) (hs : s ≤ 1) :
    multistart_batched_index b s = List.range b ∧
      ∀ k : ℕ, k < b → (multistart_batched_index b s).getD k 0 = k := by
  have h : multistart_batched_index b s = List.range b := by
    unfold multistart_batched_index
    rw [if_pos hs]
  refine ⟨h, ?_⟩
  intro k hk
  rw [h, List.getD_eq_getElem _ _ (by simpa using hk)]
  simp

/-- C10 witness: the identity theorem applied at batch size 3 with
`num_starts = -1`. -/
theorem C10_identity_when_few_starts_witness :
    (-1 : ℤ) ≤ 1 ∧ multistart_batched_index 3 (-1) = List.range 3 ∧
      (2 < 3 ∧ (multistart_batched_index 3 (-1)).getD 2 0 = 2) :=
  ⟨by decide, (C10_identity_when_few_starts 3 (-1) (by decide)).1,
    by decide, (C10_identity_when_few_starts 3 (-1) (by decide)).2 2 (by decide)⟩

/-! ## Claim theorems: masked log-probabilities -/

theorem foldr_add_fin : ∀ (l : List ℝ) (c : ℝ),
    (l.map FVal.fin).foldr FVal.add (FVal.fin c) = FVal.fin (l.sum + c) := by
  intro l
  induction l with
  | nil => intro c; simp
  | cons a t ih =>
      intro c
      simp only [List.map_cons, List.foldr_cons, ih, List.sum_cons, FVal.add]
      congr 1
      ring

theorem sumF_eq_fin (n : ℕ) (f : ℕ → FVal) (g : ℕ → ℝ)
    (h : ∀ j < n, f j = FVal.fin (g j)) :
    sumF n f = FVal.fin (∑ j ∈ Finset.range n, g j) := by
  unfold sumF
  have hmap : (List.range n).map f = ((List.range n).map g).map FVal.fin := by
    rw [List.map_map]
    apply List.map_congr_left
    intro a ha
    exact h a (List.mem_range.1 ha)
  rw [hmap, foldr_add_fin, add_zero, list_range_map_sum]

/-- Concrete all-zero heatmap used in the `_get_log_p` witnesses. -/
def hm0 : ℕ → ℕ → ℕ → ℝ := fun _ _ _ => 0

/-- Concrete one-row state whose single action is feasible. -/
def tdA : TD :=
  { rows := 1, done := fun _ => false, action_mask := fun _ _ => true,
    action := none, reward := none }

/-- Concrete one-row state with every action forbidden. -/
def tdB : TD :=
  { rows := 1, done := fun _ => false, action_mask := fun _ _ => false,
    action := none, reward := none }

/-- C2: for every state, heatmap and `num_starts`, each row of the `log_p`
returned by `_get_log_p` with at least one feasible action is a proper
log-distribution: every masked position is exactly −∞, and the exponentials
sum to 1 over the node dimension. -/
theorem C2_log_p_valid_distribution (n b : ℕ) (hm : ℕ → ℕ → ℕ → ℝ) (ns : ℤ)
    (td : TD) (i : ℕ) (hfeas : ∃ j < n, td.action_mask i j = true) :
    (∀ j, (get_log_p n b hm ns td).2 i j = true →
        (get_log_p n b hm ns td).1 i j = FVal.neginf) ∧
    sumF n (fun j => FVal.exp ((get_log_p n b hm ns td).1 i j)) = FVal.fin 1 := by
  obtain ⟨j0, hj0n, hj0⟩ := hfeas
  set p0 : ℕ → ℝ := preMaskLogP n b hm ns td.action i with hp0
  set g : ℕ → ℝ := fun j => if td.action_mask i j = true then Real.exp (p0 j) else 0
    with hg
  have hmrow : ∀ j, maskedLogP n b hm ns td i j =
      if td.action_mask i j = true then FVal.fin (p0 j) else FVal.neginf := by
    intro j
    cases hcase : td.action_mask i j <;>
      simp [maskedLogP, tdMask, hcase, hp0]
  have hexp_masked : ∀ j < n, FVal.exp (maskedLogP n b hm ns td i j) = FVal.fin (g j) := by
    intro j _
    rw [hmrow j]
    cases hcase : td.action_mask i j <;> simp [FVal.exp, hg, hcase]
  have hsum1 : sumF n (fun k => FVal.exp (maskedLogP n b hm ns td i k)) =
      FVal.fin (∑ j ∈ Finset.range n, g j) := sumF_eq_fin n _ g hexp_masked
  set S : ℝ := ∑ j ∈ Finset.range n, g j with hS
  have hSpos : 0 < S := by
    apply Finset.sum_pos'
    · intro j _
      by_cases hc : td.action_mask i j = true <;>
        simp [hg, hc, le_of_lt (Real.exp_pos _)]
    · exact ⟨j0, Finset.mem_range.2 hj0n, by simp [hg, hj0, Real.exp_pos]⟩
  have hlogS : FVal.log (FVal.fin S) = FVal.fin (Real.log S) := by
    simp only [FVal.log, if_neg (not_lt.2 hSpos.le), if_neg (ne_of_gt hSpos)]
  have hlp : ∀ j, (get_log_p n b hm ns td).1 i j =
      FVal.sub (maskedLogP n b hm ns td i j) (FVal.fin (Real.log S)) := by
    intro j
    simp only [get_log_p, logSoftmaxRow]
    rw [hsum1, hlogS]
  constructor
  · intro j hj
    have hne : td.action_mask i j = false := by
      simp only [get_log_p, tdMask] at hj
      cases hcase : td.action_mask i j
      · rfl
      · rw [hcase] at hj
        simp at hj
    rw [hlp j, hmrow j, hne]
    simp [FVal.sub]
  · have hexp_lp : ∀ j < n, FVal.exp ((get_log_p n b hm ns td).1 i j) =
        FVal.fin (if td.action_mask i j = true
          then Real.exp (p0 j - Real.log S) else 0) := by
      intro j _
      rw [hlp j, hmrow j]
      cases hcase : td.action_mask i j <;> simp [FVal.sub, FVal.exp, hcase]
    rw [sumF_eq_fin n _ _ hexp_lp]
    congr 1
    have hterm : ∀ j ∈ Finset.range n,
        (if td.action_mask i j = true then Real.exp (p0 j - Real.log S) else 0)
          = g j / S := by
      intro j _
      by_cases hc : td.action_mask i j = true
      · simp only [hc, if_true, hg]
        rw [Real.exp_sub, Real.exp_log hSpos]
      · simp [hc, hg]
    rw [Finset.sum_congr rfl hterm, ← Finset.sum_div, ← hS, div_self (ne_of_gt hSpos)]

/-- C2 witness: the distribution theorem applied to a one-node state with a
feasible action and the all-zero heatmap. -/
theorem C2_log_p_valid_distribution_witness :
    (∃ j < 1, tdA.action_mask 0 j = true) ∧
    ((∀ j, (get_log_p 1 1 hm0 1 tdA).2 0 j = true →
        (get_log_p 1 1 hm0 1 tdA).1 0 j = FVal.neginf) ∧
      sumF 1 (fun j => FVal.exp ((get_log_p 1 1 hm0 1 tdA).1 0 j)) = FVal.fin 1) :=
  ⟨⟨0, by omega, rfl⟩,
    C2_log_p_valid_distribution 1 1 hm0 1 tdA 0 ⟨0, by omega, rfl⟩⟩

/-- C8: for a row whose `action_mask` forbids every action, `_get_log_p`
writes −∞ at every position before normalization, and the log-softmax then
returns NaN (−∞ − −∞) at every position of the row, with no guard. -/
theorem C8_degenerate_mask_nan (n b : ℕ) (hm : ℕ → ℕ → ℕ → ℝ) (ns : ℤ)
    (td : TD) (i : ℕ) (hdeg : ∀ j, td.action_mask i j = false) :
    (∀ j, maskedLogP n b hm ns td i j = FVal.neginf) ∧
    (∀ j, (get_log_p n b hm ns td).1 i j = FVal.nan) := by
  have hmrow : ∀ j, maskedLogP n b hm ns td i j = FVal.neginf := by
    intro j
    simp [maskedLogP, tdMask, hdeg j]
  refine ⟨hmrow, ?_⟩
  intro j
  have hsum0 : sumF n (fun k => FVal.exp (maskedLogP n b hm ns td i k)) = FVal.fin 0 := by
    have h := sumF_eq_fin n (fun k => FVal.exp (maskedLogP n b hm ns td i k))
      (fun _ => 0) (by
        intro k _
        show FVal.exp (maskedLogP n b hm ns td i k) = FVal.fin 0
        rw [hmrow k]
        rfl)
    simpa using h
  simp only [get_log_p, logSoftmaxRow]
  rw [hsum0, hmrow j]
  norm_num [FVal.log, FVal.sub]

/-- C8 witness: the degenerate-mask theorem applied to a one-node state with
every action forbidden. -/
theorem C8_degenerate_mask_nan_witness :
    (∀ j, tdB.action_mask 0 j = false) ∧
    ((∀ j, maskedLogP 1 1 hm0 1 tdB 0 j = FVal.neginf) ∧
      (∀ j, (get_log_p 1 1 hm0 1 tdB).1 0 j = FVal.nan)) :=
  ⟨fun _ => rfl, C8_degenerate_mask_nan 1 1 hm0 1 tdB 0 (fun _ => rfl)⟩

/-- The first-step pre-mask scores as the claim words them: the mean over
SOURCE nodes `u` of `heatmap[i, u, j]` (a column mean). -/
def specSourceMean (n : ℕ) (hm : ℕ → ℕ → ℕ → ℝ) : ℕ → ℕ → ℝ :=
  fun i j => (∑ u ∈ Finset.range n, hm i u j) / n

/-- Asymmetric two-node heatmap separating the row mean from the column
mean. -/
def hmC3 : ℕ → ℕ → ℕ → ℝ := fun i u v => if i = 0 ∧ u = 0 ∧ v = 1 then 1 else 0

/-- C3 counterexample: with no action taken, the code computes
`heatmaps_logp.mean(-1)` — the mean over TARGET nodes of `heatmap[i, j, ·]` —
which differs from the claimed mean over source nodes on an asymmetric
heatmap: at `(i, j) = (0, 0)` the code yields 1/2 while the claimed column
mean is 0. -/
theorem C3_first_step_counterexample :
    preMaskLogP 2 1 hmC3 1 none 0 0 ≠ specSourceMean 2 hmC3 0 0 := by
  have h1 : preMaskLogP 2 1 hmC3 1 none 0 0 = 1 / 2 := by
    show meanLast 2 hmC3 0 0 = 1 / 2
    rw [meanLast, list_range_map_sum]
    rw [Finset.sum_range_succ, Finset.sum_range_succ, Finset.sum_range_zero]
    norm_num [hmC3]
  have h2 : specSourceMean 2 hmC3 0 0 = 0 := by
    rw [specSourceMean]
    rw [Finset.sum_range_succ, Finset.sum_range_succ, Finset.sum_range_zero]
    norm_num [hmC3]
  rw [h1, h2]
  norm_num

/-- C3 amended: when no action has been taken yet, the pre-mask score of node
`j` in instance `i` is the mean over TARGET nodes `v` of `heatmap[i, j, v]`
(the row mean along the last dimension, `mean(-1)`), independent of any prior
node. -/
theorem C3_first_step_row_mean (n b : ℕ) (hm : ℕ → ℕ → ℕ → ℝ) (ns : ℤ) (i j : ℕ) :
    preMaskLogP n b hm ns none i j = (∑ v ∈ Finset.range n, hm i j v) / n := by
  show meanLast n hm i j = _
  rw [meanLast, list_range_map_sum]

/-! ## Claim theorems: decode loop and decoder object state -/

theorem decodeLoop_some_allDone (body : TD → TD) :
    ∀ (fuel : ℕ) (td td' : TD),
      decodeLoop body fuel td = some td' → allDone td' = true := by
  intro fuel
  induction fuel with
  | zero =>
      intro td td' h
      simp only [decodeLoop] at h
      cases hAD : allDone td <;> rw [hAD] at h
      · exact absurd h (by simp)
      · rw [← Option.some.inj h]
        exact hAD
  | succ fuel ih =>
      intro td td' h
      simp only [decodeLoop] at h
      cases hAD : allDone td <;> rw [hAD] at h
      · exact ih (body td) td' h
      · rw [← Option.some.inj h]
        exact hAD

theorem decodeLoop_exit_now (body : TD → TD) (td : TD) (h : allDone td = true) :
    ∀ fuel, decodeLoop body fuel td = some td := by
  intro fuel
  cases fuel <;> simp [decodeLoop, h]

theorem decodeLoop_total (body : TD → TD) :
    ∀ (N : ℕ) (td : TD), allDone (body^[N] td) = true →
      ∃ fuel td', decodeLoop body fuel td = some td' := by
  intro N
  induction N with
  | zero =>
      intro td h
      simp only [Function.iterate_zero, id] at h
      exact ⟨0, td, by simp [decodeLoop, h]⟩
  | succ N ih =>
      intro td h
      cases hAD : allDone td with
      | true => exact ⟨0, td, by simp [decodeLoop, hAD]⟩
      | false =>
          rw [Function.iterate_succ_apply] at h
          obtain ⟨fuel, td', hf⟩ := ih (body td) h
          refine ⟨fuel + 1, td', ?_⟩
          simp only [decodeLoop, hAD]
          exact hf

/-- C9: the main decode loop of `forward` exits only in a state whose `done`
flags are all true, exits immediately when they already are, and whenever the
loop body drives the state to all-done within `N` iterations, some fuel makes
`forward` return a result. -/
theorem C9_decode_loop_termination (d : ℕ) (regE : String → Env)
    (regS : String → Strategy) (dec : NonAutoregressiveDecoder d) (td : TD)
    (graph : List (EGraph d)) (env : Option (String ⊕ Env)) (decode_type : String) :
    (∀ (fuel : ℕ) (td' : TD),
        decodeLoop (forwardLoopBody regE regS dec td graph env decode_type) fuel
          (forwardInitTD regE regS dec td graph env decode_type) = some td' →
        allDone td' = true) ∧
    (allDone (forwardInitTD regE regS dec td graph env decode_type) = true →
      ∀ fuel, decodeLoop (forwardLoopBody regE regS dec td graph env decode_type) fuel
          (forwardInitTD regE regS dec td graph env decode_type) =
        some (forwardInitTD regE regS dec td graph env decode_type)) ∧
    (∀ N : ℕ,
        allDone ((forwardLoopBody regE regS dec td graph env decode_type)^[N]
          (forwardInitTD regE regS dec td graph env decode_type)) = true →
      ∃ fuel : ℕ,
        ((NonAutoregressiveDecoder.forward regE regS dec td graph env decode_type
          false fuel).1).isSome = true) := by
  refine ⟨?_, ?_, ?_⟩
  · intro fuel td' h
    exact decodeLoop_some_allDone _ fuel _ td' h
  · intro h fuel
    exact decodeLoop_exit_now _ _ h fuel
  · intro N h
    obtain ⟨fuel, td', hf⟩ := decodeLoop_total _ N _ h
    refine ⟨fuel, ?_⟩
    simp only [NonAutoregressiveDecoder.forward]
    rw [hf]
    rfl

/-- Trivial environment used in the loop/state witnesses. -/
def trivEnv : Env := { step := id, get_reward := fun _ _ _ => 0 }

/-- Trivial strategy used in the loop/state witnesses. -/
def trivStrategy : Strategy :=
  { preHook := fun td e => (td, e, 1),
    stepFn := fun _ _ td => td,
    postHook := fun td e => (fun _ _ => 0, fun _ _ => 0, td, e) }

/-- Environment registry for witnesses. -/
def regEW : String → Env := fun _ => trivEnv

/-- Strategy registry for witnesses. -/
def regSW : String → Strategy := fun _ => trivStrategy

/-- Zero-row state: all sequences trivially done. -/
def tdW0 : TD :=
  { rows := 0, done := fun _ => false, action_mask := fun _ _ => true,
    action := none, reward := none }

/-- Concrete decoder object with no strategy stored yet. -/
def decW : NonAutoregressiveDecoder 1 :=
  { env_name := "tsp", heatmap_generator := genW, decode_strategy := none }

/-- C9 witness: the termination theorem applied to a concrete environment
whose state is all-done after 0 steps; `forward` returns with fuel 0. -/
theorem C9_decode_loop_termination_witness :
    allDone tdW0 = true ∧
      ∃ fuel : ℕ,
        ((NonAutoregressiveDecoder.forward regEW regSW decW tdW0 [] none "greedy"
          false fuel).1).isSome = true :=
  ⟨rfl,
    (C9_decode_loop_termination 1 regEW regSW decW tdW0 [] none "greedy").2.2 0 rfl⟩

/-- C7 counterexample: the memoization cache is NOT the only state surviving
a `forward` call: `forward` assigns `self.decode_strategy`, so a decoder that
had no stored strategy has one after the call returns. -/
theorem C7_state_counterexample :
    decW.decode_strategy = none ∧
      (NonAutoregressiveDecoder.forward regEW regSW decW tdW0 [] none "greedy" false
          0).2.decode_strategy ≠ none := by
  refine ⟨rfl, ?_⟩
  intro h
  simp [NonAutoregressiveDecoder.forward] at h

/-- C7 amended: across `forward` calls, the surviving decoder-object state is
the memoization cache plus the `decode_strategy` attribute, which is set to
the strategy used; `env_name` and `heatmap_generator` are unchanged and
nothing else of the decoder object is written. -/
theorem C7_forward_state_frame (d : ℕ) (regE : String → Env)
    (regS : String → Strategy) (dec : NonAutoregressiveDecoder d) (td : TD)
    (graph : List (EGraph d)) (env : Option (String ⊕ Env)) (decode_type : String)
    (calc_reward : Bool) (fuel : ℕ) :
    (NonAutoregressiveDecoder.forward regE regS dec td graph env decode_type
        calc_reward fuel).2 =
      { env_name := dec.env_name, heatmap_generator := dec.heatmap_generator,
        decode_strategy := some (regS decode_type) } := by
  rfl

end RL4CO
